import Mathlib

/-!
Verification development for the GirlTREK dashboard data-entry portal
(`simplified_auth_app.py`).  The Python core is shallowly embedded:

* numeric strings are parsed with a model of Python's `float(str)` builtin
  (finite values as exact rationals `Rat`; the special literals `inf`,
  `infinity`, `nan` — case-insensitive, signed — as separate constructors;
  digit-group underscores and ASCII whitespace stripping are modelled;
  overflow of huge finite literals to IEEE infinity is not modelled, and
  rounding in `"%.2f"` formatting is round-half-even on the exact rational
  where CPython rounds the nearest binary double — these deviations do not
  affect any statement proved below);
* the submissions CSV file is modelled both abstractly (an
  `Option (List Submission)`, `none` meaning the file does not exist) and
  concretely at the byte level for the export round-trip (pandas
  `to_csv` quoting: a field is quoted iff it contains the delimiter, the
  quote char, CR or LF; internal quotes are doubled; rows are terminated
  by `'\n'`);
* fallible file writes are modelled by a `WriteOutcome`: `save_submission`
  rewrites the whole file via `to_csv`, which opens the target with mode
  `'w'` — a failed open leaves the file untouched, but once the open has
  succeeded the file is created/truncated, and a write failure part-way
  (disk full) leaves only a prefix of the intended rows on disk (prefixes
  abstracted at record granularity);
* `uuid.uuid4()` draws 128 random bits; the random draw is passed in as an
  explicit `Nat` oracle argument and formatted exactly as `str(uuid.uuid4())`
  does (hex digits grouped 8-4-4-4-12, version nibble forced to `4`,
  variant bits forced to `10`).
-/

/-! ### Characters and digits -/

def isDigitCh (c : Char) : Bool := 48 ≤ c.toNat ∧ c.toNat ≤ 57

def digitCh (d : Nat) : Char := Char.ofNat (48 + d)

/-- ASCII whitespace accepted (and stripped) by Python `float(str)`. -/
def isWsCh (c : Char) : Bool :=
  c = ' ' ∨ c = '\t' ∨ c = '\n' ∨ c = '\r' ∨ c = '\x0b' ∨ c = '\x0c'

/-- ASCII lower-casing, as Python applies to the `inf` / `nan` keywords. -/
def lowCh (c : Char) : Char :=
  if 65 ≤ c.toNat ∧ c.toNat ≤ 90 then Char.ofNat (c.toNat + 32) else c

/-- Numeric value of a big-endian digit string (`foldl`, as positional value). -/
def natOfDigits (l : List Char) : Nat :=
  l.foldl (fun acc c => acc * 10 + (c.toNat - 48)) 0

/-- Little-endian decimal digits of a positive number, with fuel so that the
recursion is structural (and hence kernel-reducible); `fuel ≥ n` suffices. -/
def natDigitsRevAux : Nat → Nat → List Char
  | _, 0 => []
  | n, fuel + 1 => if n = 0 then [] else digitCh (n % 10) :: natDigitsRevAux (n / 10) fuel

/-- Little-endian decimal digits (`0` prints as `"0"`). -/
def natDigitsRev (n : Nat) : List Char :=
  if n = 0 then ['0'] else natDigitsRevAux n n

/-! ### Python `float(str)` -/

/-- Exact value of a finite decimal literal: `num / 10 ^ e10`.  Kept as an
unnormalised decimal fraction so that every operation below is plain
`Int`/`Nat` arithmetic; all observable outputs depend only on the value. -/
structure PyRat where
  num : Int
  e10 : Nat
deriving DecidableEq, Repr

/-- Result of Python's `float(str)`: a finite value (exact decimal fraction),
a signed infinity, or NaN. -/
inductive PyFloat where
  | finite : PyRat → PyFloat
  | inf : Bool → PyFloat
  | nan : PyFloat
deriving DecidableEq, Repr

/-- Decimal literal: `digits [. digits] [(e|E) [sign] digits]`, at least one
mantissa digit, nothing left over. -/
def parseDec (l : List Char) : Option PyRat :=
  let ip := l.takeWhile isDigitCh
  let r1 := l.dropWhile isDigitCh
  let r1' := match r1 with
    | '.' :: t => t
    | _ => r1
  let fp := r1'.takeWhile isDigitCh
  let r2 := r1'.dropWhile isDigitCh
  if ip = [] ∧ fp = [] then none
  else
    let base : PyRat :=
      ⟨(natOfDigits ip * 10 ^ fp.length + natOfDigits fp : Nat), fp.length⟩
    match r2 with
    | [] => some base
    | c :: t =>
      if c = 'e' ∨ c = 'E' then
        let eneg := match t with
          | '-' :: _ => true
          | _ => false
        let t1 := match t with
          | '+' :: u => u
          | '-' :: u => u
          | _ => t
        let ed := t1.takeWhile isDigitCh
        let t2 := t1.dropWhile isDigitCh
        if ed = [] ∨ t2 ≠ [] then none
        else if eneg then some ⟨base.num, base.e10 + natOfDigits ed⟩
        else some ⟨base.num * (10 : Int) ^ natOfDigits ed, base.e10⟩
      else none

/-- Strip one optional leading sign; `true` means negative. -/
def splitSign : List Char → Bool × List Char
  | [] => (false, [])
  | c :: t => if c = '-' then (true, t) else if c = '+' then (false, t) else (false, c :: t)

/-- Sign, then either a case-insensitive `inf`/`infinity`/`nan` keyword
(consuming everything) or a decimal literal. -/
def parseCore (l : List Char) : Option PyFloat :=
  let neg := (splitSign l).1
  let r := (splitSign l).2
  let low := r.map lowCh
  if low = ['i', 'n', 'f'] ∨ low = ['i', 'n', 'f', 'i', 'n', 'i', 't', 'y'] then
    some (.inf neg)
  else if low = ['n', 'a', 'n'] then some .nan
  else
    match parseDec r with
    | some q => some (.finite (if neg then ⟨-q.num, q.e10⟩ else q))
    | none => none

/-- Remove a trailing run of ASCII whitespace. -/
def rtrimWs : List Char → List Char
  | [] => []
  | a :: l =>
    match rtrimWs l with
    | [] => if isWsCh a then [] else [a]
    | r => a :: r

def stripWs (l : List Char) : List Char := rtrimWs (l.dropWhile isWsCh)

/-- Each `'_'` must sit directly between two digits (CPython's rule for
underscores in numeric literals). -/
def validUAux : Option Char → List Char → Bool
  | _, [] => true
  | prev, c :: t =>
    if c = '_' then
      (match prev with
       | some p => isDigitCh p
       | none => false) &&
      (match t with
       | d :: _ => isDigitCh d
       | [] => false) && validUAux (some c) t
    else validUAux (some c) t

def validU (l : List Char) : Bool := validUAux none l

/-- Model of Python's `float(str)`: strip ASCII whitespace, validate and
drop digit-group underscores, then parse sign + keyword-or-decimal. -/
def pyFloat (s : String) : Option PyFloat :=
  let l := stripWs s.data
  if validU l then parseCore (l.filter (fun c => c != '_')) else none

/-! ### Python number formatting (`f"{x:,.2f}"`, `f"{n:,}"`, `int(float)`) -/

/-- Insert `','` after every three digits of a little-endian digit list. -/
def group3 : List Char → List Char
  | a :: b :: c :: t =>
    match t with
    | [] => [a, b, c]
    | _ :: _ => a :: b :: c :: ',' :: group3 t
  | l => l

/-- Big-endian comma-grouped decimal rendering of a natural number. -/
def natGrouped (n : Nat) : List Char := (group3 (natDigitsRev n)).reverse

/-- `f"{i:,}"` for a Python int. -/
def intGrouped (i : Int) : List Char :=
  (if i < 0 then ['-'] else []) ++ natGrouped i.natAbs

def fmtCommaInt (i : Int) : String := ⟨intGrouped i⟩

/-- `int(x)` on a finite value: truncation toward zero. -/
def pyTrunc (q : PyRat) : Int :=
  let m : Nat := q.num.natAbs / 10 ^ q.e10
  if q.num < 0 then -(m : Int) else (m : Int)

/-- Round half to even on the nonnegative fraction `a / d` (Python's rounding
for `"%.2f"`, applied here to the exact value; `d > 0` at every use site). -/
def rheNat (a d : Nat) : Nat :=
  let f := a / d
  let r := a % d
  if 2 * r < d then f else if d < 2 * r then f + 1 else if f % 2 = 0 then f else f + 1

def twoDigits (n : Nat) : List Char := [digitCh (n / 10 % 10), digitCh (n % 10)]

/-- `f"{q:,.2f}"` for a finite value: sign, comma-grouped integer part, `'.'`,
exactly two fraction digits (rounding half-even is applied to `|q| * 100`;
the sign is the sign of the value, so small negatives print as `-0.00`). -/
def fmtCommaFixed2 (q : PyRat) : String :=
  let m := rheNat (q.num.natAbs * 100) (10 ^ q.e10)
  ⟨(if q.num < 0 then ['-'] else []) ++ natGrouped (m / 100) ++ '.' :: twoDigits (m % 100)⟩

/-! ### `format_value` (source lines 183–197) -/

/-- Metric names taking the currency branch of `format_value`
(and the dollar input widget, source lines 184 and 291). -/
def currencyMetrics : List String :=
  ["Total Contributions", "Total Grants", "Corporate Sponsorships",
   "Store Sales", "Other Revenue"]

/-- Metric names taking the percentage branch (source lines 189 and 288). -/
def percentMetrics : List String := ["Member Satisfaction Rating", "ASANA Adoption"]

/-- Metric names given a free-text input widget (source line 294). -/
def freeTextMetrics : List String := ["New Member Stories"]

/-- Python `value.endswith('%')` for the one-character suffix used here:
the last character is `'%'`. -/
def endswithPct (s : String) : Bool := s.data.getLast? = some '%'

/-- Shallow embedding of `format_value` (source lines 183–197).
Currency metrics: `f"${float(value):,.2f}"`, falling back to `value` when
`float` raises; an infinite or NaN parse formats as `$inf` / `$-inf` / `$nan`.
Percentage metrics: append `'%'` unless already present.
Everything else: `f"{int(float(value)):,}"`, falling back to `value` when
`float` or `int` raises (the bare `except` also catches `int(inf)`/`int(nan)`). -/
def format_value (value : String) (metric_name : String) : String :=
  if metric_name ∈ currencyMetrics then
    match pyFloat value with
    | some (.finite q) => ⟨'$' :: (fmtCommaFixed2 q).data⟩
    | some (.inf b) => if b then "$-inf" else "$inf"
    | some .nan => "$nan"
    | none => value
  else if metric_name ∈ percentMetrics then
    if endswithPct value then value else ⟨value.data ++ ['%']⟩
  else
    match pyFloat value with
    | some (.finite q) => fmtCommaInt (pyTrunc q)
    | some (.inf _) => value
    | some .nan => value
    | none => value

example : format_value "1234.5" "Total Contributions" = "$1,234.50" := by decide
example : format_value "2500" "New Member Stories" = "2,500" := by decide
example : format_value "abc" "Total Grants" = "abc" := by decide
example : format_value "inf" "Total Contributions" = "$inf" := by decide
example : format_value "50" "ASANA Adoption" = "50%" := by decide
example : format_value "3.7" "Total New Members" = "3" := by decide
example : pyFloat "1_000" = some (.finite ⟨1000, 0⟩) := by decide
example : pyFloat "  -2.5e1 " = some (.finite ⟨-250, 1⟩) := by decide
example : pyFloat "1_" = none := by decide
example : pyFloat "-Infinity" = some (.inf true) := by decide

/-! ### Submission records -/

/-- One row of `data/submissions.csv`, column order as written by
`save_submission` / exported by `to_csv` (source lines 98–101 and 308–318). -/
structure Submission where
  submission_id : String
  timestamp : String
  first_name : String
  last_name : String
  email : String
  dashboard_section : String
  metric_name : String
  metric_value : String
  notes : String
deriving DecidableEq, Repr

/-! ### CSV export (`filtered_df.to_csv(index=False)`, source line 386)

pandas writes with `csv.QUOTE_MINIMAL`: a field is quoted iff it contains
the delimiter `','`, the quote char `'"'`, or a line-break character; inside
a quoted field each `'"'` is doubled.  Each row (header first) is terminated
by `'\n'`. -/

def needsQuote (f : List Char) : Bool :=
  f.any (fun c => c = ',' ∨ c = '"' ∨ c = '\n' ∨ c = '\r')

def dupQuotes : List Char → List Char
  | [] => []
  | c :: r => if c = '"' then '"' :: '"' :: dupQuotes r else c :: dupQuotes r

def escField (f : List Char) : List Char :=
  if needsQuote f then '"' :: dupQuotes f ++ ['"'] else f

def writeRow : List (List Char) → List Char
  | [] => []
  | [f] => escField f
  | f :: g :: t => escField f ++ ',' :: writeRow (g :: t)

def writeCsv (rows : List (List (List Char))) : List Char :=
  (rows.map (fun r => writeRow r ++ ['\n'])).flatten

def subFields (s : Submission) : List (List Char) :=
  [s.submission_id.data, s.timestamp.data, s.first_name.data, s.last_name.data,
   s.email.data, s.dashboard_section.data, s.metric_name.data,
   s.metric_value.data, s.notes.data]

def headerFields : List (List Char) :=
  ["submission_id".data, "timestamp".data, "first_name".data, "last_name".data,
   "email".data, "dashboard_section".data, "metric_name".data,
   "metric_value".data, "notes".data]

/-- The exported bytes: header row, then one row per record. -/
def to_csv (l : List Submission) : String :=
  ⟨writeCsv (headerFields :: l.map subFields)⟩

/-! ### CSV reparse (standard RFC-4180-style reader)

One record is parsed by a three-state machine: `recStart` at the start of a
field (where a `'"'` opens a quoted field), `recU` inside an unquoted field,
`recQ` inside a quoted field (`closeQuote` handles the character after a
closing `'"'`).  A record ends at `'\n'` (`more := true`) or at end of input
(`more := false`). -/

structure RecOut where
  field : List Char
  fields : List (List Char)
  more : Bool
  rest : List Char
deriving DecidableEq, Repr

mutual

def recStart : List Char → RecOut
  | [] => ⟨[], [], false, []⟩
  | c :: r =>
    if c = '"' then recQ r
    else if c = ',' then
      let p := recStart r
      ⟨[], p.field :: p.fields, p.more, p.rest⟩
    else if c = '\n' then ⟨[], [], true, r⟩
    else
      let p := recU r
      ⟨c :: p.field, p.fields, p.more, p.rest⟩

def recU : List Char → RecOut
  | [] => ⟨[], [], false, []⟩
  | c :: r =>
    if c = ',' then
      let p := recStart r
      ⟨[], p.field :: p.fields, p.more, p.rest⟩
    else if c = '\n' then ⟨[], [], true, r⟩
    else
      let p := recU r
      ⟨c :: p.field, p.fields, p.more, p.rest⟩

def recQ : List Char → RecOut
  | [] => ⟨[], [], false, []⟩
  | c :: r =>
    if c = '"' then recQend r
    else
      let p := recQ r
      ⟨c :: p.field, p.fields, p.more, p.rest⟩

/-- State after a `'"'` seen inside a quoted field: a second `'"'` is an
escaped quote, a delimiter or newline closes the field, anything else is
malformed (never produced by the writer). -/
def recQend : List Char → RecOut
  | [] => ⟨[], [], false, []⟩
  | c2 :: r2 =>
    if c2 = '"' then
      let p := recQ r2
      ⟨'"' :: p.field, p.fields, p.more, p.rest⟩
    else if c2 = ',' then
      let p := recStart r2
      ⟨[], p.field :: p.fields, p.more, p.rest⟩
    else if c2 = '\n' then ⟨[], [], true, r2⟩
    else ⟨[], [], false, c2 :: r2⟩

end

theorem rec_rest_le (n : Nat) : ∀ l : List Char, l.length ≤ n →
    ((recStart l).rest.length ≤ l.length ∧ (recU l).rest.length ≤ l.length) ∧
      ((recQ l).rest.length ≤ l.length ∧ (recQend l).rest.length ≤ l.length) := by
  induction n with
  | zero =>
    intro l hl
    have : l = [] := List.length_eq_zero.mp (Nat.le_zero.mp hl)
    subst this
    exact ⟨⟨Nat.le_refl 0, Nat.le_refl 0⟩, Nat.le_refl 0, Nat.le_refl 0⟩
  | succ n ih =>
    intro l hl
    match l with
    | [] => exact ⟨⟨Nat.le_refl 0, Nat.le_refl 0⟩, Nat.le_refl 0, Nat.le_refl 0⟩
    | c :: r =>
      have hr : r.length ≤ n := by
        simp only [List.length_cons] at hl
        omega
      have ihr := ih r hr
      refine ⟨⟨?_, ?_⟩, ?_, ?_⟩
      · simp only [recStart]
        split
        · exact Nat.le_succ_of_le ihr.2.1
        · split
          · exact Nat.le_succ_of_le ihr.1.1
          · split
            · simp
            · exact Nat.le_succ_of_le ihr.1.2
      · simp only [recU]
        split
        · exact Nat.le_succ_of_le ihr.1.1
        · split
          · simp
          · exact Nat.le_succ_of_le ihr.1.2
      · simp only [recQ]
        split
        · exact Nat.le_succ_of_le ihr.2.2
        · exact Nat.le_succ_of_le ihr.2.1
      · simp only [recQend]
        split
        · exact Nat.le_succ_of_le ihr.2.1
        · split
          · exact Nat.le_succ_of_le ihr.1.1
          · split
            · simp
            · simp

theorem recStart_rest_lt (c : Char) (r : List Char) :
    (recStart (c :: r)).rest.length < (c :: r).length := by
  have hle := rec_rest_le r.length r (Nat.le_refl _)
  simp only [recStart]
  split
  · exact Nat.lt_succ_of_le hle.2.1
  · split
    · exact Nat.lt_succ_of_le hle.1.1
    · split
      · simp
      · exact Nat.lt_succ_of_le hle.1.2

/-- Parse the whole byte stream into records (lists of fields).  A final
`'\n'` terminates the last record rather than opening an empty one, as in
the standard tabular-text convention. -/
def parseCsv (l : List Char) : List (List (List Char)) :=
  match l with
  | [] => []
  | c :: r =>
    let p := recStart (c :: r)
    if p.more then
      if p.rest = [] then [p.field :: p.fields]
      else (p.field :: p.fields) :: parseCsv p.rest
    else [p.field :: p.fields]
termination_by l.length
decreasing_by
  apply recStart_rest_lt

def rowToSub : List (List Char) → Option Submission
  | [a, b, c, d, e, f, g, h, i] => some ⟨⟨a⟩, ⟨b⟩, ⟨c⟩, ⟨d⟩, ⟨e⟩, ⟨f⟩, ⟨g⟩, ⟨h⟩, ⟨i⟩⟩
  | _ => none

/-- Reparse exported bytes: drop the header row, rebuild one `Submission`
per remaining row. -/
def reimport (s : String) : Option (List Submission) :=
  match parseCsv s.data with
  | [] => none
  | _hdr :: rows => rows.mapM rowToSub

/-! ### The submission store (source lines 94–109) -/

/-- `StorageWriteError`: the underlying medium could not be written. -/
inductive StorageError where
  | writeError
deriving DecidableEq, Repr

/-- The persisted file, abstractly: `none` when `data/submissions.csv` does
not exist, `some rows` when it holds the given records. -/
def FileState := Option (List Submission)

/-- `load_submissions` (source lines 94–101): read the file if it exists,
otherwise an empty table.  It performs no writes. -/
def load_submissions (file : Option (List Submission)) : List Submission :=
  match file with
  | some rows => rows
  | none => []

/-- `loadAll` as a state transition: `load_submissions` never creates or
modifies the file (its body contains no write call), so the state component
is returned untouched. -/
def loadAll_op (file : Option (List Submission)) :
    List Submission × Option (List Submission) :=
  (load_submissions file, file)

/-- The possible outcomes of the `to_csv` full-file rewrite inside
`save_submission`.  `to_csv` opens `data/submissions.csv` with mode `'w'`:
if the open itself fails (permission denied) the file is untouched, but a
successful open creates/truncates the file, so a write failure part-way
(disk full) leaves only a prefix of the intended rows on disk.  Partial
content is abstracted at record granularity: `diskFull k` means the first
`k` intended records made it to disk. -/
inductive WriteOutcome where
  | success
  | openFail
  | diskFull (k : Nat)
deriving DecidableEq, Repr

/-- `save_submission` (source lines 104–109): read the full log, append one
record, write the full log back via `to_csv`, return `True`.  There is no
error handling in the source: a failing `to_csv` raises out of the
function, with the on-disk content determined by how far the rewrite got
(see `WriteOutcome`). -/
def save_submission (outcome : WriteOutcome) (file : Option (List Submission))
    (rec : Submission) :
    Option (List Submission) × Except StorageError Bool :=
  let submissions_df := load_submissions file
  let updated_df := submissions_df ++ [rec]
  match outcome with
  | .success => (some updated_df, .ok true)
  | .openFail => (file, .error .writeError)
  | .diskFull k => (some (updated_df.take k), .error .writeError)

/-! ### `str(uuid.uuid4())` (source line 307) -/

def hexDigitCh (d : Nat) : Char :=
  if d < 10 then Char.ofNat (48 + d) else Char.ofNat (87 + d)

/-- The 32 hex digits of a version-4 UUID built from 128 random bits `r`:
digit 12 is the version nibble `4`, digit 16 carries the variant bits `10`. -/
def uuid4_hexDigits (r : Nat) : List Nat :=
  (List.range 32).map (fun i =>
    let d := r / 16 ^ (31 - i) % 16
    if i = 12 then 4 else if i = 16 then 8 + d % 4 else d)

/-- `str(uuid.uuid4())`, with the 128 random bits passed in as an oracle:
hex digits grouped 8-4-4-4-12, joined by `'-'`. -/
def uuid4_str (r : Nat) : String :=
  let c := (uuid4_hexDigits r).map hexDigitCh
  ⟨c.take 8 ++ '-' :: (c.drop 8).take 4 ++ '-' :: (c.drop 12).take 4 ++
    '-' :: (c.drop 16).take 4 ++ '-' :: c.drop 20⟩

example : uuid4_str 0 = "00000000-0000-4000-8000-000000000000" := by decide

/-! ### The submission handler (source lines 305–336) -/

/-- Python `name.split()`: split on whitespace runs, no empty pieces. -/
def pySplitWsAux : List Char → List Char → List String
  | acc, [] => if acc = [] then [] else [⟨acc.reverse⟩]
  | acc, c :: t =>
    if isWsCh c then
      if acc = [] then pySplitWsAux [] t else ⟨acc.reverse⟩ :: pySplitWsAux [] t
    else pySplitWsAux (c :: acc) t

def pySplitWs (s : String) : List String := pySplitWsAux [] s.data

/-- What the handler reports back to the user. -/
inductive HandlerMsg where
  | success (id : String)
  | errorBanner
deriving DecidableEq, Repr

/-- The submit branch (source lines 305–336): build the record (fresh
`uuid4` id from the oracle bits `rand`, timestamp, identity split into
first/last name), call `save_submission`, and show the success banner when
it returned `True`.  An exception from `save_submission` propagates (the
`st.error` branch is reachable only on a `False` return). -/
def submission_handler (outcome : WriteOutcome) (file : Option (List Submission))
    (rand : Nat) (now userName userEmail sectionName metric value notes : String) :
    Option (List Submission) × Except StorageError HandlerMsg :=
  let submission_id := uuid4_str rand
  let parts := pySplitWs userName
  let submission_data : Submission :=
    { submission_id := submission_id
      timestamp := now
      first_name := parts.headD ""
      last_name := if parts.length > 1 then " ".intercalate (parts.drop 1) else ""
      email := userEmail
      dashboard_section := sectionName
      metric_name := metric
      metric_value := value
      notes := notes }
  let (file', r) := save_submission outcome file submission_data
  (file',
    match r with
    | .ok b => if b then .ok (.success submission_id) else .ok .errorBanner
    | .error e => .error e)

/-! ### View Submissions: filter, sort, export (source lines 363–386) -/

/-- The filter block (source lines 363–370): a selection different from the
sentinel `"All Sections"` / `"All Metrics"` restricts to exact matches. -/
def apply_filters (records : List Submission)
    (filter_section filter_metrics : String) : List Submission :=
  let filtered₁ :=
    if filter_section ≠ "All Sections" then
      records.filter (fun r => r.dashboard_section = filter_section)
    else records
  if filter_metrics ≠ "All Metrics" then
    filtered₁.filter (fun r => r.metric_name = filter_metrics)
  else filtered₁

/-- Code-point lexicographic strict order on strings (how pandas compares
`object`-dtype timestamp strings). -/
def strLtL : List Char → List Char → Bool
  | [], [] => false
  | [], _ :: _ => true
  | _ :: _, [] => false
  | a :: x, b :: y => if a.toNat < b.toNat then true
      else if b.toNat < a.toNat then false else strLtL x y

def tsLe (a b : Submission) : Bool := ! strLtL b.timestamp.data a.timestamp.data

/-- Stable insertion into an ascending run. -/
def insertTs (x : Submission) : List Submission → List Submission
  | [] => [x]
  | y :: ys => if tsLe x y then x :: y :: ys else y :: insertTs x ys

/-- Stable ascending sort by `timestamp` (what a stable `argsort` yields;
numpy's sort on arrays this small is a stable insertion sort). -/
def sortTsAsc : List Submission → List Submission
  | [] => []
  | x :: xs => insertTs x (sortTsAsc xs)

/-- `filtered_df.sort_values(by='timestamp', ascending=False)` (source line
373): pandas `nargsort` reverses the array BEFORE the ascending argsort and
the resulting indexer AFTER it, so the two reversals cancel on ties and the
composite is a stable descending sort (the double reversal exists precisely
to keep descending sorts stable; numpy's sort on arrays this small is a
stable insertion sort).  Modelled as reverse, stable ascending sort,
reverse. -/
def sort_values_desc (records : List Submission) : List Submission :=
  (sortTsAsc records.reverse).reverse

/-! ### Sample records used by witnesses and counterexamples -/

def subA : Submission :=
  ⟨"idA", "2025-01-02 03:04:05", "Jane", "Doe", "jane@girltrek.org",
   "Recruitment", "Total New Members", "2,500", "first note"⟩

def subB : Submission :=
  ⟨"idB", "2025-02-02 03:04:05", "GirlTREK", "Admin", "admin@girltrek.org",
   "Development", "Total Contributions", "$1,234.50", "note, with \"quotes\"\nand a newline"⟩

/-- Same timestamp as `subC2`, different identity: a sorting tie. -/
def subC1 : Submission :=
  ⟨"idC1", "2025-03-03 10:00:00", "A", "A", "a@x.org",
   "Engagement", "Total New Crews", "3", ""⟩

def subC2 : Submission :=
  ⟨"idC2", "2025-03-03 10:00:00", "B", "B", "b@x.org",
   "Engagement", "Total New Crews", "4", ""⟩

/-! ## Claims -/

/-- Claim C3, counterexample: the claim promises that on a write failure
"no record is added to the store (the stored log is unchanged)", but
`save_submission` rewrites the whole file and `to_csv` truncates it on
open, so a disk-full failure mid-write can leave the stored log truncated:
here a log holding one record is left empty by the failed append. -/
theorem c3_log_truncated :
    (save_submission (.diskFull 0) (some [subA]) subB).2 = .error .writeError ∧
    (save_submission (.diskFull 0) (some [subA]) subB).1 = some [] ∧
    (some ([] : List Submission)) ≠ some [subA] := by
  refine ⟨rfl, rfl, by decide⟩

/-- Claim C3, amended: when the underlying medium cannot be written,
`save_submission` fails with the storage write error, the handler surfaces
the failure to its caller and never reports success, and no appended record
is reported as persisted — but the stored log is guaranteed unchanged only
when the open itself failed; once `to_csv` has opened (and truncated) the
file, a mid-write failure leaves just a prefix of the intended rows. -/
theorem c3_write_failure (outcome : WriteOutcome)
    (file : Option (List Submission)) (rec : Submission) (rand : Nat)
    (now userName userEmail sectionName metric value notes : String)
    (h : outcome ≠ .success) :
    (save_submission outcome file rec).2 = .error .writeError ∧
    (submission_handler outcome file rand now userName userEmail sectionName
        metric value notes).2 = .error .writeError ∧
    (∀ id, (submission_handler outcome file rand now userName userEmail sectionName
        metric value notes).2 ≠ .ok (.success id)) ∧
    (outcome = .openFail → (save_submission outcome file rec).1 = file) ∧
    (∀ k, outcome = .diskFull k → (save_submission outcome file rec).1 =
      some ((load_submissions file ++ [rec]).take k)) := by
  cases outcome with
  | success => exact absurd rfl h
  | openFail =>
    refine ⟨rfl, rfl, ?_, fun _ => rfl, ?_⟩
    · intro id hid
      simp [submission_handler, save_submission] at hid
    · intro k hk
      exact absurd hk (by simp)
  | diskFull k0 =>
    refine ⟨rfl, rfl, ?_, ?_, ?_⟩
    · intro id hid
      simp [submission_handler, save_submission] at hid
    · intro hk
      exact absurd hk (by simp)
    · intro k hk
      rw [show k = k0 from by
        rw [WriteOutcome.diskFull.injEq] at hk
        exact hk.symm]
      rfl

theorem c3_write_failure_witness :
    (save_submission (.diskFull 1) (some [subA]) subB).2 = .error .writeError ∧
    (submission_handler (.diskFull 1) (some [subA]) 0 "2025-04-01 00:00:00"
        "GirlTREK Admin" "admin@girltrek.org" "Development"
        "Total Contributions" "$1,234.50" "").2 = .error .writeError ∧
    (∀ id, (submission_handler (.diskFull 1) (some [subA]) 0 "2025-04-01 00:00:00"
        "GirlTREK Admin" "admin@girltrek.org" "Development"
        "Total Contributions" "$1,234.50" "").2 ≠ .ok (.success id)) ∧
    ((.diskFull 1 : WriteOutcome) = .openFail →
      (save_submission (.diskFull 1) (some [subA]) subB).1 = some [subA]) ∧
    (∀ k, (.diskFull 1 : WriteOutcome) = .diskFull k →
      (save_submission (.diskFull 1) (some [subA]) subB).1 =
        some ((load_submissions (some [subA]) ++ [subB]).take k)) :=
  c3_write_failure (.diskFull 1) (some [subA]) subB 0 "2025-04-01 00:00:00"
    "GirlTREK Admin" "admin@girltrek.org" "Development" "Total Contributions"
    "$1,234.50" "" (by decide)

/-- Claim C9, counterexample: the claim says the file is created only on
the first successful append, but an append whose `to_csv` open succeeds and
whose write then fails also creates the file (empty here): the state after
the FAILED append to a missing file is an existing, empty log. -/
theorem c9_failed_append_creates_file :
    (save_submission (.diskFull 0) none subA).2 = .error .writeError ∧
    (save_submission (.diskFull 0) none subA).1 = some [] ∧
    (some ([] : List Submission)) ≠ none := by
  refine ⟨rfl, rfl, by decide⟩

/-- Claim C9, amended: a missing log file reads as the empty sequence (a
normal result) and reading creates no file; the file is created by the
first append whose open succeeds — holding the record on success, a prefix
(possibly nothing) of it on a mid-write failure — while an append whose
open fails leaves the file missing. -/
theorem c9_missing_file (rec : Submission) :
    loadAll_op none = ([], none) ∧
    (save_submission .success none rec).1 = some [rec] ∧
    (save_submission .openFail none rec).1 = none ∧
    ∀ k, (save_submission (.diskFull k) none rec).1 = some ([rec].take k) := by
  exact ⟨rfl, rfl, rfl, fun k => rfl⟩

/-- Claim C8: the View-Submissions filter is the identity when both
selections are the sentinels, and an exact-match restriction on both fields
when both are set. -/
theorem c8_filter (l : List Submission) :
    apply_filters l "All Sections" "All Metrics" = l ∧
    ∀ c m, c ≠ "All Sections" → m ≠ "All Metrics" →
      apply_filters l c m =
        l.filter (fun r => decide (r.dashboard_section = c ∧ r.metric_name = m)) := by
  constructor
  · simp [apply_filters]
  · intro c m hc hm
    simp only [apply_filters, if_pos hc, if_pos hm, List.filter_filter]
    congr 1
    funext r
    simp [Bool.and_comm]

theorem c8_filter_witness :
    apply_filters [subA, subB] "All Sections" "All Metrics" = [subA, subB] ∧
    apply_filters [subA, subB] "Development" "Total Contributions" = [subB] := by
  have h := c8_filter [subA, subB]
  refine ⟨h.1, ?_⟩
  rw [h.2 "Development" "Total Contributions" (by decide) (by decide)]
  decide

/-- Claim C5 (confirmed with one precision): `format_value` is total by
construction — every fallible Python operation (`float`, `int`) is modelled
and its exception is caught by the bare `except`, so a string is always
returned.  On input that does not parse as a float, the two numeric branches
return the raw input unchanged; the percentage branch never parses and
appends `'%'` instead. -/
theorem c5_total_fallback (v m : String) (h : pyFloat v = none) :
    format_value v m = v ∨ format_value v m = ⟨v.data ++ ['%']⟩ := by
  unfold format_value
  split
  · rw [h]
    exact Or.inl rfl
  · split
    · split
      · exact Or.inl rfl
      · exact Or.inr rfl
    · rw [h]
      exact Or.inl rfl

theorem c5_total_fallback_witness :
    format_value "twelve" "Total Membership" = "twelve" ∨
      format_value "twelve" "Total Membership" = ⟨"twelve".data ++ ['%']⟩ :=
  c5_total_fallback "twelve" "Total Membership" (by decide)

/-- Claim C4, counterexample: "New Member Stories" is the free-text metric
(it gets the free-text input widget, source line 294), yet `format_value`
has no free-text branch — the metric falls into the default integer branch,
which rewrites the numeric story text `"2500"` into `"2,500"`. -/
theorem c4_freetext_changed :
    "New Member Stories" ∈ freeTextMetrics ∧
    format_value "2500" "New Member Stories" = "2,500" ∧
    ("2,500" : String) ≠ "2500" := by
  refine ⟨by decide, by decide, by decide⟩

/-- Claim C4, amended: for the free-text metric, `format_value` behaves as
the default integer-count branch — input parsing as a finite float is
truncated to an integer and comma-grouped; any other input (including
ordinary narrative text) is returned unchanged. -/
theorem c4_freetext_integer_branch (v : String) :
    format_value v "New Member Stories" =
      match pyFloat v with
      | some (.finite q) => fmtCommaInt (pyTrunc q)
      | _ => v := by
  unfold format_value
  have hc : ("New Member Stories" : String) ∉ currencyMetrics := by decide
  have hp : ("New Member Stories" : String) ∉ percentMetrics := by decide
  rw [if_neg hc, if_neg hp]
  match hv : pyFloat v with
  | none => rfl
  | some (.finite q) => rfl
  | some (.inf b) => rfl
  | some .nan => rfl

/-- Checker for the currency output shape claimed by the spec: `'$'`, an
optional minus sign, comma-grouped digits (groups of three from the right,
leading group of one to three), a dot, exactly two digits.
`grpRev` checks the grouped integer part little-endian. -/
def grpRev : List Char → Bool
  | [a] => isDigitCh a
  | [a, b] => isDigitCh a && isDigitCh b
  | [a, b, c] => isDigitCh a && isDigitCh b && isDigitCh c
  | a :: b :: c :: ',' :: t => isDigitCh a && isDigitCh b && isDigitCh c && grpRev t
  | _ => false

def isCurrencyShape (s : String) : Bool :=
  match s.data with
  | c0 :: rest =>
    if c0 = '$' then
      let body := match rest with
        | c :: t => if c = '-' then t else c :: t
        | [] => []
      match body.reverse with
      | d1 :: d2 :: c :: ir => isDigitCh d1 && isDigitCh d2 && c = '.' && grpRev ir
      | _ => false
    else false
  | [] => false

example : isCurrencyShape "$1,234.50" = true := by decide
example : isCurrencyShape "$-5.00" = true := by decide
example : isCurrencyShape "$1234.50" = false := by decide

theorem digitCh_isDigit (d : Nat) (h : d < 10) : isDigitCh (digitCh d) = true := by
  interval_cases d <;> decide

theorem natDigitsRevAux_digits :
    ∀ fuel n c, c ∈ natDigitsRevAux n fuel → isDigitCh c = true := by
  intro fuel
  induction fuel with
  | zero => intro n c hc; simp [natDigitsRevAux] at hc
  | succ fuel ih =>
    intro n c hc
    simp only [natDigitsRevAux] at hc
    split at hc
    · simp at hc
    · rcases List.mem_cons.mp hc with h | h
      · subst h
        exact digitCh_isDigit _ (Nat.mod_lt _ (by omega))
      · exact ih _ _ h

theorem natDigitsRev_digits (n : Nat) (c : Char) (hc : c ∈ natDigitsRev n) :
    isDigitCh c = true := by
  unfold natDigitsRev at hc
  split at hc
  · simp at hc
    subst hc
    decide
  · exact natDigitsRevAux_digits n n c hc

theorem natDigitsRev_ne_nil (n : Nat) : natDigitsRev n ≠ [] := by
  unfold natDigitsRev
  split
  · simp
  · match n with
    | 0 => simp_all
    | m + 1 =>
      simp [natDigitsRevAux]

theorem grpRev_group3 :
    ∀ n (l : List Char), l.length ≤ n → l ≠ [] → (∀ c ∈ l, isDigitCh c = true) →
      grpRev (group3 l) = true := by
  intro n
  induction n with
  | zero =>
    intro l hl hne _
    exact absurd (List.length_eq_zero.mp (Nat.le_zero.mp hl)) hne
  | succ n ih =>
    intro l hl hne hd
    match l with
    | [a] => simp [group3, grpRev, hd a (by simp)]
    | [a, b] => simp [group3, grpRev, hd a (by simp), hd b (by simp)]
    | [a, b, c] =>
      simp [group3, grpRev, hd a (by simp), hd b (by simp), hd c (by simp)]
    | a :: b :: c :: d :: t =>
      have hrec : grpRev (group3 (d :: t)) = true := by
        refine ih (d :: t) ?_ (by simp) ?_
        · simp only [List.length_cons] at hl ⊢
          omega
        · intro x hx
          exact hd x (by simp [List.mem_cons] at hx ⊢; tauto)
      simp [group3, grpRev, hd a (by simp), hd b (by simp), hd c (by simp), hrec]

theorem isDigit_ne_comma {c : Char} (h : isDigitCh c = true) : c ≠ ',' := by
  intro he
  subst he
  simp [isDigitCh] at h

theorem isDigit_ne_minus {c : Char} (h : isDigitCh c = true) : c ≠ '-' := by
  intro he
  subst he
  simp [isDigitCh] at h

theorem group3_ne_nil : ∀ l : List Char, l ≠ [] → group3 l ≠ [] := by
  intro l hl
  match l with
  | [a] => simp [group3]
  | [a, b] => simp [group3]
  | [a, b, c] => simp [group3]
  | a :: b :: c :: d :: t => simp [group3]

theorem mem_group3 {c : Char} :
    ∀ n (l : List Char), l.length ≤ n → c ∈ group3 l → c ∈ l ∨ c = ',' := by
  intro n
  induction n with
  | zero =>
    intro l hl hc
    have : l = [] := List.length_eq_zero.mp (Nat.le_zero.mp hl)
    subst this
    simp [group3] at hc
  | succ n ih =>
    intro l hl hc
    match l with
    | [] => simp [group3] at hc
    | [a] => simp [group3] at hc; simp [hc]
    | [a, b] => simp [group3] at hc; rcases hc with h | h <;> simp [h]
    | [a, b, c'] =>
      simp [group3] at hc
      rcases hc with h | h | h <;> simp [h]
    | a :: b :: c' :: d :: t =>
      simp only [group3, List.mem_cons] at hc
      rcases hc with h | h | h | h | h
      · exact Or.inl (by simp [h])
      · exact Or.inl (by simp [h])
      · exact Or.inl (by simp [h])
      · exact Or.inr h
      · have := ih (d :: t) (by simp only [List.length_cons] at hl ⊢; omega) h
        rcases this with h2 | h2
        · exact Or.inl (by simp [List.mem_cons] at h2 ⊢; tauto)
        · exact Or.inr h2

theorem natGrouped_ne_nil (n : Nat) : natGrouped n ≠ [] := by
  unfold natGrouped
  simp only [ne_eq, List.reverse_eq_nil_iff]
  exact group3_ne_nil _ (natDigitsRev_ne_nil n)

theorem mem_natGrouped {c : Char} {n : Nat} (h : c ∈ natGrouped n) :
    isDigitCh c = true ∨ c = ',' := by
  unfold natGrouped at h
  rw [List.mem_reverse] at h
  rcases mem_group3 (natDigitsRev n).length _ (Nat.le_refl _) h with h2 | h2
  · exact Or.inl (natDigitsRev_digits n c h2)
  · exact Or.inr h2

/-- The two-decimal currency rendering always has the claimed shape. -/
theorem isCurrencyShape_fmt (q : PyRat) :
    isCurrencyShape ⟨'$' :: (fmtCommaFixed2 q).data⟩ = true := by
  have key : ∀ (sign : List Char), sign = [] ∨ sign = ['-'] → ∀ I F : Nat,
      isCurrencyShape ⟨'$' :: (sign ++ (natGrouped I ++ '.' :: twoDigits F))⟩ = true := by
    intro sign hsign I F
    have hgrp : grpRev (group3 (natDigitsRev I)) = true :=
      grpRev_group3 (natDigitsRev I).length _ (Nat.le_refl _)
        (natDigitsRev_ne_nil _) (fun c hc => natDigitsRev_digits _ c hc)
    have hd1 : isDigitCh (digitCh (F % 10)) = true :=
      digitCh_isDigit _ (Nat.mod_lt _ (by omega))
    have hd2 : isDigitCh (digitCh (F / 10 % 10)) = true :=
      digitCh_isDigit _ (Nat.mod_lt _ (by omega))
    have hXrev : (natGrouped I ++ '.' :: twoDigits F).reverse =
        digitCh (F % 10) :: digitCh (F / 10 % 10) :: '.' :: group3 (natDigitsRev I) := by
      rw [show ('.' :: twoDigits F) = ['.', digitCh (F / 10 % 10), digitCh (F % 10)] from rfl]
      rw [List.reverse_append]
      rw [show (['.', digitCh (F / 10 % 10), digitCh (F % 10)] : List Char).reverse =
          [digitCh (F % 10), digitCh (F / 10 % 10), '.'] from rfl]
      unfold natGrouped
      rw [List.reverse_reverse]
      rfl
    obtain ⟨hd, tl, hX⟩ : ∃ hd tl, natGrouped I = hd :: tl := by
      cases hN : natGrouped I with
      | nil => exact absurd hN (natGrouped_ne_nil I)
      | cons hd tl => exact ⟨hd, tl, rfl⟩
    have hhd : hd ≠ '-' := by
      have : hd ∈ natGrouped I := by rw [hX]; simp
      rcases mem_natGrouped this with h | h
      · exact isDigit_ne_minus h
      · rw [h]; decide
    rcases hsign with h | h <;> subst h
    · unfold isCurrencyShape
      simp only [List.nil_append, hX, List.cons_append, if_true]
      rw [if_neg hhd]
      rw [show (hd :: (tl ++ '.' :: twoDigits F)) = natGrouped I ++ '.' :: twoDigits F by
        rw [hX]; simp]
      rw [hXrev]
      simp [hd1, hd2, hgrp]
    · unfold isCurrencyShape
      simp only [List.cons_append, List.nil_append, if_true]
      rw [hXrev]
      simp [hd1, hd2, hgrp]
  unfold fmtCommaFixed2
  by_cases hneg : q.num < 0
  · simpa [hneg, List.append_assoc] using
      key ['-'] (Or.inr rfl) (rheNat (q.num.natAbs * 100) (10 ^ q.e10) / 100)
        (rheNat (q.num.natAbs * 100) (10 ^ q.e10) % 100)
  · simpa [hneg, List.append_assoc] using
      key [] (Or.inl rfl) (rheNat (q.num.natAbs * 100) (10 ^ q.e10) / 100)
        (rheNat (q.num.natAbs * 100) (10 ^ q.e10) % 100)

/-- Claim C6, counterexample: Python's `float()` accepts `"inf"` (so the
input is parseable as a number), yet the currency branch renders it as
`"$inf"` — no two decimal places, no grouping — and it is not returned
unchanged either, so the claim fails at this input under either reading of
"parseable as a number". -/
theorem c6_currency_inf :
    pyFloat "inf" = some (.inf false) ∧
    format_value "inf" "Total Contributions" = "$inf" ∧
    ("$inf" : String) ≠ "inf" ∧
    isCurrencyShape "$inf" = false := by
  refine ⟨by decide, by decide, by decide, by decide⟩

/-- Claim C6, amended: for every currency metric, input parsed by `float()`
as a finite number is rendered as `'$'`, an optional sign, comma-grouped
digits and exactly two decimals; input rejected by `float()` is returned
unchanged; the special parses `inf`/`-inf`/`nan` render as `"$inf"` etc. -/
theorem c6_currency_format (m v : String) (hm : m ∈ currencyMetrics) :
    (∀ q, pyFloat v = some (.finite q) → isCurrencyShape (format_value v m) = true) ∧
    (pyFloat v = none → format_value v m = v) := by
  constructor
  · intro q hv
    unfold format_value
    rw [if_pos hm, hv]
    exact isCurrencyShape_fmt q
  · intro hv
    unfold format_value
    rw [if_pos hm, hv]

theorem c6_currency_format_witness :
    isCurrencyShape (format_value "1234.5" "Total Contributions") = true ∧
    format_value "1234.5" "Total Contributions" = "$1,234.50" ∧
    format_value "12 dollars" "Total Contributions" = "12 dollars" :=
  ⟨(c6_currency_format "Total Contributions" "1234.5" (by decide)).1 ⟨12345, 1⟩ (by decide),
   by decide,
   (c6_currency_format "Total Contributions" "12 dollars" (by decide)).2 (by decide)⟩

theorem uuid4_str_ne_empty (r : Nat) : uuid4_str r ≠ "" := by
  intro h
  have h2 := congrArg String.data h
  unfold uuid4_str at h2
  simp [List.append_eq_nil] at h2

/-- Claim C7: a successful append is immediately visible to `loadAll` — the
new log is exactly the old one plus the new record — and the record carries
the freshly drawn uuid4 id, which is non-empty; provided the 128-bit random
draw does not reproduce an id already in the log (the only guarantee
`uuid.uuid4()` gives is probabilistic), the new id differs from every prior
id. -/
theorem c7_append_visible (file : Option (List Submission)) (rand : Nat)
    (now userName userEmail sectionName metric value notes : String)
    (h : uuid4_str rand ∉ (load_submissions file).map Submission.submission_id) :
    ∃ rec : Submission,
      (submission_handler .success file rand now userName userEmail sectionName
          metric value notes).2 = .ok (.success rec.submission_id) ∧
      load_submissions (submission_handler .success file rand now userName userEmail
          sectionName metric value notes).1 = load_submissions file ++ [rec] ∧
      rec ∈ load_submissions (submission_handler .success file rand now userName
          userEmail sectionName metric value notes).1 ∧
      rec.submission_id = uuid4_str rand ∧
      rec.submission_id ≠ "" ∧
      ∀ s ∈ load_submissions file, s.submission_id ≠ rec.submission_id := by
  refine ⟨{ submission_id := uuid4_str rand
            timestamp := now
            first_name := (pySplitWs userName).headD ""
            last_name := if (pySplitWs userName).length > 1 then
                " ".intercalate ((pySplitWs userName).drop 1)
              else ""
            email := userEmail
            dashboard_section := sectionName
            metric_name := metric
            metric_value := value
            notes := notes }, rfl, rfl, ?_, rfl, uuid4_str_ne_empty rand, ?_⟩
  · show _ ∈ load_submissions (some (load_submissions file ++ [_]))
    simp [load_submissions]
  · intro s hs heq
    exact h (List.mem_map.mpr ⟨s, hs, heq⟩)

theorem c7_append_visible_witness :
    ∃ rec : Submission,
      (submission_handler .success (some [subA]) 0 "2025-04-01 00:00:00"
          "GirlTREK Admin" "admin@girltrek.org" "Recruitment"
          "Total New Members" "2,500" "").2 = .ok (.success rec.submission_id) ∧
      load_submissions (submission_handler .success (some [subA]) 0 "2025-04-01 00:00:00"
          "GirlTREK Admin" "admin@girltrek.org" "Recruitment"
          "Total New Members" "2,500" "").1 = load_submissions (some [subA]) ++ [rec] ∧
      rec ∈ load_submissions (submission_handler .success (some [subA]) 0 "2025-04-01 00:00:00"
          "GirlTREK Admin" "admin@girltrek.org" "Recruitment"
          "Total New Members" "2,500" "").1 ∧
      rec.submission_id = uuid4_str 0 ∧
      rec.submission_id ≠ "" ∧
      ∀ s ∈ load_submissions (some [subA]), s.submission_id ≠ rec.submission_id :=
  c7_append_visible (some [subA]) 0 "2025-04-01 00:00:00" "GirlTREK Admin"
    "admin@girltrek.org" "Recruitment" "Total New Members" "2,500" "" (by decide)

/-! ### Claim C2: the View-Submissions sort -/

theorem strLtL_irrefl : ∀ l : List Char, strLtL l l = false := by
  intro l
  induction l with
  | nil => rfl
  | cons a t ih => simp [strLtL, ih]

theorem strLtL_asymm : ∀ a b : List Char, strLtL a b = true → strLtL b a = false := by
  intro a
  induction a with
  | nil =>
    intro b h
    cases b with
    | nil => simp [strLtL] at h
    | cons d u => rfl
  | cons c t ih =>
    intro b h
    cases b with
    | nil => simp [strLtL] at h
    | cons d u =>
      simp only [strLtL] at h ⊢
      by_cases h1 : c.toNat < d.toNat
      · rw [if_neg (by omega), if_pos h1]
      · by_cases h2 : d.toNat < c.toNat
        · rw [if_neg h1, if_pos h2] at h
          exact absurd h (by simp)
        · rw [if_neg h1, if_neg h2] at h
          rw [if_neg h2, if_neg h1]
          exact ih u h

theorem strLtL_eq_of_not : ∀ a b : List Char,
    strLtL a b = false → strLtL b a = false → a = b := by
  intro a
  induction a with
  | nil =>
    intro b h1 h2
    cases b with
    | nil => rfl
    | cons d u => simp [strLtL] at h1
  | cons c t ih =>
    intro b h1 h2
    cases b with
    | nil => simp [strLtL] at h2
    | cons d u =>
      simp only [strLtL] at h1 h2
      by_cases hcd : c.toNat < d.toNat
      · rw [if_pos hcd] at h1
        exact absurd h1 (by simp)
      · by_cases hdc : d.toNat < c.toNat
        · rw [if_pos hdc] at h2
          exact absurd h2 (by simp)
        · rw [if_neg hcd, if_neg hdc] at h1
          rw [if_neg hdc, if_neg hcd] at h2
          have hch : c = d := by
            have : c.toNat = d.toNat := by omega
            have h4 := congrArg Char.ofNat this
            rwa [Char.ofNat_toNat, Char.ofNat_toNat] at h4
          rw [hch, ih u h1 h2]

theorem strLtL_trans : ∀ a b c : List Char,
    strLtL a b = true → strLtL b c = true → strLtL a c = true := by
  intro a
  induction a with
  | nil =>
    intro b c h1 h2
    cases b with
    | nil => simp [strLtL] at h1
    | cons d u =>
      cases c with
      | nil => simp [strLtL] at h2
      | cons e v => rfl
  | cons x t ih =>
    intro b c h1 h2
    cases b with
    | nil => simp [strLtL] at h1
    | cons d u =>
      cases c with
      | nil => simp [strLtL] at h2
      | cons e v =>
        simp only [strLtL] at h1 h2 ⊢
        by_cases hxd : x.toNat < d.toNat
        · by_cases hde : d.toNat < e.toNat
          · rw [if_pos (by omega)]
          · by_cases hed : e.toNat < d.toNat
            · rw [if_neg hde, if_pos hed] at h2
              exact absurd h2 (by simp)
            · rw [if_pos (by omega)]
        · by_cases hdx : d.toNat < x.toNat
          · rw [if_neg hxd, if_pos hdx] at h1
            exact absurd h1 (by simp)
          · rw [if_neg hxd, if_neg hdx] at h1
            by_cases hde : d.toNat < e.toNat
            · rw [if_pos (by omega)]
            · by_cases hed : e.toNat < d.toNat
              · rw [if_neg hde, if_pos hed] at h2
                exact absurd h2 (by simp)
              · rw [if_neg hde, if_neg hed] at h2
                rw [if_neg (by omega), if_neg (by omega)]
                exact ih u v h1 h2

theorem tsLe_total (a b : Submission) : tsLe a b = true ∨ tsLe b a = true := by
  unfold tsLe
  by_cases h : strLtL b.timestamp.data a.timestamp.data = true
  · right
    simp [strLtL_asymm _ _ h]
  · left
    simp only [Bool.not_eq_true] at h
    simp [h]

theorem tsLe_trans {a b c : Submission} (h1 : tsLe a b = true)
    (h2 : tsLe b c = true) : tsLe a c = true := by
  unfold tsLe at h1 h2 ⊢
  simp only [Bool.not_eq_true'] at h1 h2 ⊢
  by_contra hlt
  simp only [Bool.not_eq_false] at hlt
  by_cases h3 : strLtL b.timestamp.data c.timestamp.data = true
  · have := strLtL_trans _ _ _ h3 hlt
    rw [this] at h1
    exact absurd h1 (by simp)
  · simp only [Bool.not_eq_true] at h3
    have heq := strLtL_eq_of_not _ _ h2 h3
    rw [heq] at hlt
    rw [hlt] at h1
    exact absurd h1 (by simp)

theorem insertTs_perm (x : Submission) :
    ∀ l, List.Perm (insertTs x l) (x :: l) := by
  intro l
  induction l with
  | nil => exact List.Perm.refl _
  | cons y ys ih =>
    unfold insertTs
    split
    · exact List.Perm.refl _
    · exact List.Perm.trans (List.Perm.cons y ih) (List.Perm.swap x y ys)

theorem pairwise_insertTs (x : Submission) :
    ∀ l, List.Pairwise (fun a b => tsLe a b = true) l →
      List.Pairwise (fun a b => tsLe a b = true) (insertTs x l) := by
  intro l
  induction l with
  | nil =>
    intro _
    simp [insertTs]
  | cons y ys ih =>
    intro hp
    rw [List.pairwise_cons] at hp
    unfold insertTs
    split
    · rename_i hxy
      rw [List.pairwise_cons]
      refine ⟨?_, List.pairwise_cons.mpr hp⟩
      intro z hz
      rcases List.mem_cons.mp hz with h | h
      · rw [h]
        exact hxy
      · exact tsLe_trans hxy (hp.1 z h)
    · rename_i hxy
      have hyx : tsLe y x = true := by
        rcases tsLe_total x y with h | h
        · exact absurd h hxy
        · exact h
      rw [List.pairwise_cons]
      refine ⟨?_, ih hp.2⟩
      intro z hz
      rcases List.mem_cons.mp ((List.Perm.mem_iff (insertTs_perm x ys)).mp hz) with h | h
      · rw [h]
        exact hyx
      · exact hp.1 z h

theorem sortTsAsc_perm : ∀ l, List.Perm (sortTsAsc l) l := by
  intro l
  induction l with
  | nil => exact List.Perm.refl _
  | cons x xs ih =>
    unfold sortTsAsc
    exact List.Perm.trans (insertTs_perm x (sortTsAsc xs)) (List.Perm.cons x ih)

theorem sortTsAsc_pairwise : ∀ l,
    List.Pairwise (fun a b => tsLe a b = true) (sortTsAsc l) := by
  intro l
  induction l with
  | nil => simp [sortTsAsc]
  | cons x xs ih => exact pairwise_insertTs x _ ih

theorem strLt_of_not_tsLe {x y : Submission} (h : ¬ tsLe x y = true) :
    strLtL y.timestamp.data x.timestamp.data = true := by
  unfold tsLe at h
  cases hb : strLtL y.timestamp.data x.timestamp.data with
  | true => rfl
  | false =>
    rw [hb] at h
    exact absurd rfl h

theorem filter_insertTs (x : Submission) (t : String) :
    ∀ L, (insertTs x L).filter (fun r => r.timestamp = t) =
      (x :: L).filter (fun r => r.timestamp = t) := by
  intro L
  induction L with
  | nil => rfl
  | cons y ys ih =>
    unfold insertTs
    split
    · rfl
    · rename_i hxy
      have hlt := strLt_of_not_tsLe hxy
      by_cases hyt : y.timestamp = t
      · by_cases hxt : x.timestamp = t
        · exfalso
          rw [show y.timestamp.data = x.timestamp.data from by rw [hyt, hxt]] at hlt
          rw [strLtL_irrefl] at hlt
          exact absurd hlt (by simp)
        · simp [List.filter_cons, hyt, hxt, ih]
      · by_cases hxt : x.timestamp = t
        · simp [List.filter_cons, hyt, hxt, ih]
        · simp [List.filter_cons, hyt, hxt, ih]

theorem filter_sortTsAsc (t : String) : ∀ l : List Submission,
    (sortTsAsc l).filter (fun r => r.timestamp = t) =
      l.filter (fun r => r.timestamp = t) := by
  intro l
  induction l with
  | nil => rfl
  | cons x xs ih =>
    show (insertTs x (sortTsAsc xs)).filter _ = _
    rw [filter_insertTs x t (sortTsAsc xs)]
    simp [List.filter_cons, ih]

/-- The sort keeps a two-record timestamp tie in its original order. -/
example : sort_values_desc [subC1, subC2] = [subC1, subC2] := by decide

theorem stripWs_dollar (t : List Char) :
    ∃ u, stripWs ('$' :: t) = '$' :: u := by
  unfold stripWs
  rw [List.dropWhile_cons]
  rw [if_neg (by decide)]
  unfold rtrimWs
  cases h : rtrimWs t with
  | nil => exact ⟨[], by rw [if_neg (by decide)]⟩
  | cons x u => exact ⟨x :: u, rfl⟩

theorem parseDec_dollar (l : List Char) : parseDec ('$' :: l) = none := by
  have hd : isDigitCh '$' = false := by decide
  unfold parseDec
  simp [List.takeWhile_cons, List.dropWhile_cons, hd]

theorem parseCore_dollar (l : List Char) : parseCore ('$' :: l) = none := by
  have hlow : lowCh '$' = '$' := by decide
  unfold parseCore
  simp [splitSign, hlow, parseDec_dollar]

theorem validUAux_no_us : ∀ (l : List Char) (prev : Option Char),
    '_' ∉ l → validUAux prev l = true := by
  intro l
  induction l with
  | nil => intro prev _; rfl
  | cons c t ih =>
    intro prev hmem
    unfold validUAux
    rw [if_neg (by intro h; exact hmem (by simp [h]))]
    exact ih _ (fun h => hmem (by simp [h]))

theorem filter_no_us (l : List Char) (h : '_' ∉ l) :
    l.filter (fun c => c != '_') = l := by
  rw [List.filter_eq_self]
  intro a ha
  simp only [bne_iff_ne, ne_eq]
  intro he
  subst he
  exact h ha

theorem pyFloat_dollar (t : List Char) : pyFloat ⟨'$' :: t⟩ = none := by
  unfold pyFloat
  obtain ⟨u, hu⟩ := stripWs_dollar t
  rw [show (String.mk ('$' :: t)).data = '$' :: t from rfl, hu]
  by_cases hv : validU ('$' :: u) = true
  · rw [if_pos hv]
    rw [show ('$' :: u).filter (fun c => c != '_') =
        '$' :: u.filter (fun c => c != '_') from by simp]
    exact parseCore_dollar _
  · rw [if_neg hv]

theorem digitCh_toNat (d : Nat) (h : d < 10) : (digitCh d).toNat = 48 + d := by
  interval_cases d <;> decide

theorem natOfDigits_append_digit (l : List Char) (c : Char) :
    natOfDigits (l ++ [c]) = natOfDigits l * 10 + (c.toNat - 48) := by
  unfold natOfDigits
  rw [List.foldl_append]
  rfl

theorem natOfDigits_digitsRevAux : ∀ fuel n, n ≤ fuel →
    natOfDigits ((natDigitsRevAux n fuel).reverse) = n := by
  intro fuel
  induction fuel with
  | zero =>
    intro n hn
    interval_cases n
    rfl
  | succ fuel ih =>
    intro n hn
    unfold natDigitsRevAux
    by_cases h0 : n = 0
    · subst h0
      rfl
    · rw [if_neg h0]
      rw [List.reverse_cons, natOfDigits_append_digit]
      rw [ih (n / 10) (by omega)]
      rw [digitCh_toNat _ (Nat.mod_lt _ (by omega))]
      omega

theorem natOfDigits_digitsRev (n : Nat) :
    natOfDigits ((natDigitsRev n).reverse) = n := by
  unfold natDigitsRev
  by_cases h : n = 0
  · subst h
    rfl
  · rw [if_neg h]
    exact natOfDigits_digitsRevAux n n (Nat.le_refl n)

theorem natDigitsRevAux_length_le : ∀ fuel n k, n < 10 ^ k →
    (natDigitsRevAux n fuel).length ≤ k := by
  intro fuel
  induction fuel with
  | zero =>
    intro n k _
    simp [natDigitsRevAux]
  | succ fuel ih =>
    intro n k hk
    unfold natDigitsRevAux
    by_cases h0 : n = 0
    · simp [h0]
    · rw [if_neg h0]
      simp only [List.length_cons]
      match k with
      | 0 => omega
      | k + 1 =>
        rw [pow_succ] at hk
        have hdiv : n / 10 < 10 ^ k := by
          rw [Nat.div_lt_iff_lt_mul (by omega)]
          exact hk
        have := ih (n / 10) k hdiv
        omega

theorem natDigitsRev_length_le_three (n : Nat) (h : n < 1000) :
    (natDigitsRev n).length ≤ 3 := by
  unfold natDigitsRev
  split
  · simp
  · exact natDigitsRevAux_length_le n n 3 (by norm_num; omega)

theorem natDigitsRevAux_length_ge : ∀ fuel n k, n ≤ fuel → 10 ^ k ≤ n →
    k + 1 ≤ (natDigitsRevAux n fuel).length := by
  intro fuel
  induction fuel with
  | zero =>
    intro n k hn hk
    have h1 : 1 ≤ 10 ^ k := Nat.one_le_pow _ _ (by omega)
    omega
  | succ fuel ih =>
    intro n k hn hk
    have h1 : 1 ≤ 10 ^ k := Nat.one_le_pow _ _ (by omega)
    unfold natDigitsRevAux
    rw [if_neg (by omega)]
    simp only [List.length_cons]
    match k with
    | 0 => omega
    | k + 1 =>
      have h2 : 10 ^ k ≤ n / 10 := by
        rw [Nat.le_div_iff_mul_le (by omega)]
        rw [pow_succ] at hk
        omega
      have := ih (n / 10) k (by omega) h2
      omega

theorem natDigitsRev_length_ge_four (n : Nat) (h : 1000 ≤ n) :
    4 ≤ (natDigitsRev n).length := by
  unfold natDigitsRev
  rw [if_neg (by omega)]
  exact natDigitsRevAux_length_ge n n 3 (Nat.le_refl n) (by norm_num; omega)

theorem group3_short (l : List Char) (h : l.length ≤ 3) : group3 l = l := by
  match l with
  | [] => rfl
  | [a] => rfl
  | [a, b] => rfl
  | [a, b, c] => rfl
  | a :: b :: c :: d :: t => simp at h

theorem comma_mem_group3 (l : List Char) (h : 4 ≤ l.length) : ',' ∈ group3 l := by
  match l with
  | a :: b :: c :: d :: t => simp [group3]
  | [] => simp at h
  | [a] => simp at h
  | [a, b] => simp at h
  | [a, b, c] => simp at h

theorem comma_mem_natGrouped (n : Nat) (h : 1000 ≤ n) : ',' ∈ natGrouped n := by
  unfold natGrouped
  rw [List.mem_reverse]
  exact comma_mem_group3 _ (natDigitsRev_length_ge_four n h)

theorem ws_not_special {c : Char}
    (h : isDigitCh c = true ∨ c = ',' ∨ c = '-') : isWsCh c = false := by
  rcases h with h | h | h
  · by_contra hw
    simp only [Bool.not_eq_false] at hw
    unfold isWsCh at hw
    simp only [decide_eq_true_eq] at hw
    rcases hw with h1 | h1 | h1 | h1 | h1 | h1 <;> (subst h1; simp [isDigitCh] at h)
  · subst h
    decide
  · subst h
    decide

theorem mem_intGrouped {c : Char} {i : Int} (h : c ∈ intGrouped i) :
    isDigitCh c = true ∨ c = ',' ∨ c = '-' := by
  unfold intGrouped at h
  rcases List.mem_append.mp h with h | h
  · split at h
    · simp at h
      exact Or.inr (Or.inr h)
    · simp at h
  · rcases mem_natGrouped h with h | h
    · exact Or.inl h
    · exact Or.inr (Or.inl h)

theorem mem_of_head?Ch : ∀ (l : List Char) (c : Char), l.head? = some c → c ∈ l := by
  intro l c h
  cases l with
  | nil => simp at h
  | cons a t =>
    simp only [List.head?_cons, Option.some.injEq] at h
    simp [h]

theorem mem_of_getLast?Ch : ∀ (l : List Char) (c : Char), l.getLast? = some c → c ∈ l := by
  intro l
  induction l with
  | nil => intro c h; simp at h
  | cons a t ih =>
    intro c h
    cases t with
    | nil =>
      simp at h
      simp [h]
    | cons b t2 =>
      rw [List.getLast?_cons_cons] at h
      exact List.mem_cons_of_mem a (ih c h)

theorem dropWhileWs_id (l : List Char) (h : ∀ c ∈ l, isWsCh c = false) :
    l.dropWhile isWsCh = l := by
  cases l with
  | nil => rfl
  | cons a t =>
    rw [List.dropWhile_cons, if_neg (by simp [h a (by simp)])]

theorem rtrimWs_id (l : List Char) (h : ∀ c ∈ l, isWsCh c = false) :
    rtrimWs l = l := by
  induction l with
  | nil => rfl
  | cons a t ih =>
    have ht : rtrimWs t = t := ih (fun c hc => h c (by simp [hc]))
    unfold rtrimWs
    rw [ht]
    cases t with
    | nil => rw [if_neg (by simp [h a (by simp)])]
    | cons b t2 => rfl

theorem stripWs_id (l : List Char) (h : ∀ c ∈ l, isWsCh c = false) :
    stripWs l = l := by
  unfold stripWs
  rw [dropWhileWs_id l h]
  exact rtrimWs_id l h

theorem takeWhile_all_append (p : Char → Bool) :
    ∀ (l l2 : List Char), (∀ c ∈ l, p c = true) →
      (l ++ l2).takeWhile p = l ++ l2.takeWhile p ∧
        (l ++ l2).dropWhile p = l2.dropWhile p := by
  intro l
  induction l with
  | nil =>
    intro l2 _
    simp
  | cons a t ih =>
    intro l2 h
    have ha : p a = true := h a (by simp)
    have ht := ih l2 (fun c hc => h c (by simp [hc]))
    rw [List.cons_append, List.takeWhile_cons, List.dropWhile_cons]
    simp [ha, ht.1, ht.2]

theorem parseDec_digits_comma (ds rest : List Char)
    (hds : ∀ c ∈ ds, isDigitCh c = true) :
    parseDec (ds ++ ',' :: rest) = none := by
  have h := takeWhile_all_append isDigitCh ds (',' :: rest) hds
  have hcomma : isDigitCh ',' = false := by decide
  unfold parseDec
  rw [h.1, h.2]
  rw [List.takeWhile_cons, List.dropWhile_cons]
  simp only [hcomma, Bool.false_eq_true, if_false, List.append_nil]
  by_cases hds0 : ds = []
  · subst hds0
    simp [hcomma]
  · rw [if_neg (by simp [hds0])]
    simp [hcomma]

theorem dropWhile_mem_comma : ∀ (l : List Char), ',' ∈ l →
    ∃ rest, l.dropWhile (fun c => c != ',') = ',' :: rest := by
  intro l
  induction l with
  | nil => simp
  | cons a t ih =>
    intro hm
    rw [List.dropWhile_cons]
    by_cases ha : a = ','
    · subst ha
      rw [if_neg (by simp)]
      exact ⟨t, rfl⟩
    · rw [if_pos (by simp [ha])]
      apply ih
      rcases List.mem_cons.mp hm with h | h
      · exact absurd h.symm ha
      · exact h

theorem lowCh_small {c : Char} (h : c.toNat < 65) : lowCh c = c := by
  unfold lowCh
  rw [if_neg (by omega)]

theorem digit_or_comma_toNat {c : Char} (h : isDigitCh c = true ∨ c = ',') :
    c.toNat < 65 := by
  rcases h with h | h
  · unfold isDigitCh at h
    simp only [decide_eq_true_eq] at h
    omega
  · subst h
    decide

theorem ne_of_toNat_lt {c d : Char} (hc : c.toNat < 65) (hd : 65 ≤ d.toNat) :
    c ≠ d := by
  intro he
  subst he
  omega


theorem splitSign_minus (t : List Char) : splitSign ('-' :: t) = (true, t) := by
  simp [splitSign]

theorem splitSign_no_sign (c : Char) (t : List Char) (h1 : c ≠ '-') (h2 : c ≠ '+') :
    splitSign (c :: t) = (false, c :: t) := by
  simp [splitSign, h1, h2]

theorem digit_or_comma_ne_sign {c : Char} (h : isDigitCh c = true ∨ c = ',') :
    c ≠ '-' ∧ c ≠ '+' := by
  rcases h with h | h
  · constructor <;> (intro he; subst he; exact absurd h (by decide))
  · subst h
    exact ⟨by decide, by decide⟩

/-- If the sign-stripped text starts with a character below code 65 and its
decimal parse fails, the whole parse fails (the keyword branches need a
letter first). -/
theorem parseCore_not_special (l : List Char) (h0 : Char) (t0 : List Char)
    (hsplit : (splitSign l).2 = h0 :: t0)
    (hh0 : h0.toNat < 65)
    (hdec : parseDec (h0 :: t0) = none) :
    parseCore l = none := by
  have hlow : lowCh h0 = h0 := lowCh_small hh0
  have hni : h0 ≠ 'i' := ne_of_toNat_lt hh0 (by decide)
  have hnn : h0 ≠ 'n' := ne_of_toNat_lt hh0 (by decide)
  show (if ((splitSign l).2.map lowCh = ['i', 'n', 'f'] ∨
        (splitSign l).2.map lowCh = ['i', 'n', 'f', 'i', 'n', 'i', 't', 'y']) then
      some (PyFloat.inf (splitSign l).1)
    else if (splitSign l).2.map lowCh = ['n', 'a', 'n'] then some PyFloat.nan
    else
      match parseDec (splitSign l).2 with
      | some q => some (PyFloat.finite (if (splitSign l).1 then ⟨-q.num, q.e10⟩ else q))
      | none => none) = none
  rw [hsplit, List.map_cons, hlow]
  rw [if_neg (by
    intro h
    rcases h with h | h <;> (rw [List.cons.injEq] at h; exact hni h.1))]
  rw [if_neg (by
    intro h
    rw [List.cons.injEq] at h
    exact hnn h.1)]
  rw [hdec]

theorem parseCore_grouped_none (sign ds rest : List Char)
    (hsign : sign = [] ∨ sign = ['-'])
    (hds : ∀ c ∈ ds, isDigitCh c = true) :
    parseCore (sign ++ (ds ++ ',' :: rest)) = none := by
  obtain ⟨h0, t0, hcons, hh0⟩ : ∃ h0 t0, ds ++ ',' :: rest = h0 :: t0 ∧
      (isDigitCh h0 = true ∨ h0 = ',') := by
    cases ds with
    | nil => exact ⟨',', rest, rfl, Or.inr rfl⟩
    | cons d ds2 => exact ⟨d, ds2 ++ ',' :: rest, rfl, Or.inl (hds d (by simp))⟩
  have hh0n : h0.toNat < 65 := digit_or_comma_toNat hh0
  have hdec : parseDec (h0 :: t0) = none := by
    rw [← hcons]
    exact parseDec_digits_comma ds rest hds
  rcases hsign with h | h <;> subst h
  · rw [List.nil_append]
    refine parseCore_not_special _ h0 t0 ?_ hh0n hdec
    rw [hcons, splitSign_no_sign h0 t0 (digit_or_comma_ne_sign hh0).1
      (digit_or_comma_ne_sign hh0).2]
  · rw [show (['-'] : List Char) ++ (ds ++ ',' :: rest) = '-' :: (ds ++ ',' :: rest) from rfl]
    refine parseCore_not_special _ h0 t0 ?_ hh0n hdec
    rw [splitSign_minus, hcons]

theorem pyFloat_clean (l : List Char) (hws : ∀ c ∈ l, isWsCh c = false)
    (hus : '_' ∉ l) : pyFloat ⟨l⟩ = parseCore l := by
  have hv : validU l = true := validUAux_no_us l none hus
  show (if validU (stripWs l) then
      parseCore ((stripWs l).filter (fun c => c != '_')) else none) = parseCore l
  rw [stripWs_id l hws, if_pos hv, filter_no_us l hus]

theorem intGrouped_no_ws (i : Int) : ∀ c ∈ intGrouped i, isWsCh c = false :=
  fun _ hc => ws_not_special (mem_intGrouped hc)

theorem intGrouped_no_us (i : Int) : '_' ∉ intGrouped i := by
  intro hm
  rcases mem_intGrouped hm with h1 | h1 | h1
  · exact absurd h1 (by decide)
  · exact absurd h1 (by decide)
  · exact absurd h1 (by decide)

theorem pyFloat_fmtCommaInt_large (i : Int) (h : 1000 ≤ i.natAbs) :
    pyFloat (fmtCommaInt i) = none := by
  rw [show fmtCommaInt i = ⟨intGrouped i⟩ from rfl]
  rw [pyFloat_clean _ (intGrouped_no_ws i) (intGrouped_no_us i)]
  obtain ⟨rest, hrest⟩ := dropWhile_mem_comma _ (comma_mem_natGrouped i.natAbs h)
  have hsplit : natGrouped i.natAbs =
      (natGrouped i.natAbs).takeWhile (fun c => c != ',') ++ ',' :: rest := by
    conv_lhs => rw [← List.takeWhile_append_dropWhile
      (p := fun c => c != ',') (l := natGrouped i.natAbs)]
    rw [hrest]
  have hds : ∀ c ∈ (natGrouped i.natAbs).takeWhile (fun c => c != ','),
      isDigitCh c = true := by
    intro c hc
    have hmem : c ∈ natGrouped i.natAbs := (List.takeWhile_sublist _).mem hc
    have hp := List.mem_takeWhile_imp hc
    rcases mem_natGrouped hmem with h1 | h1
    · exact h1
    · rw [h1] at hp
      simp at hp
  unfold intGrouped
  split
  · rw [hsplit]
    exact parseCore_grouped_none ['-'] _ rest (Or.inr rfl) hds
  · rw [hsplit, show ([] : List Char) ++
      ((natGrouped i.natAbs).takeWhile (fun c => c != ',') ++ ',' :: rest) =
      (natGrouped i.natAbs).takeWhile (fun c => c != ',') ++ ',' :: rest from rfl]
    exact parseCore_grouped_none [] _ rest (Or.inl rfl) hds

theorem parseDec_digits (ds : List Char) (hds : ∀ c ∈ ds, isDigitCh c = true)
    (hne : ds ≠ []) : parseDec ds = some ⟨(natOfDigits ds : Int), 0⟩ := by
  have h1 : ds.takeWhile isDigitCh = ds := by
    have := (takeWhile_all_append isDigitCh ds [] hds).1
    simpa using this
  have h2 : ds.dropWhile isDigitCh = [] := by
    have := (takeWhile_all_append isDigitCh ds [] hds).2
    simpa using this
  have h0 : natOfDigits [] = 0 := rfl
  unfold parseDec
  rw [h1, h2]
  rw [if_neg (by simp [hne])]
  simp [h0]

theorem parseCore_digits (sign : List Char) (neg : Bool) (ds : List Char)
    (hsign : (sign = [] ∧ neg = false) ∨ (sign = ['-'] ∧ neg = true))
    (hds : ∀ c ∈ ds, isDigitCh c = true) (hne : ds ≠ []) :
    parseCore (sign ++ ds) =
      some (.finite (if neg then ⟨-(natOfDigits ds : Int), 0⟩
        else ⟨(natOfDigits ds : Int), 0⟩)) := by
  obtain ⟨h0, t0, hcons⟩ : ∃ h0 t0, ds = h0 :: t0 := by
    cases hc : ds with
    | nil => exact absurd hc hne
    | cons x u => exact ⟨x, u, rfl⟩
  have hh0 : isDigitCh h0 = true := hds h0 (by rw [hcons]; simp)
  have hh0n : h0.toNat < 65 := digit_or_comma_toNat (Or.inl hh0)
  have hlow : lowCh h0 = h0 := lowCh_small hh0n
  have hni : h0 ≠ 'i' := ne_of_toNat_lt hh0n (by decide)
  have hnn : h0 ≠ 'n' := ne_of_toNat_lt hh0n (by decide)
  have hsp : (splitSign (sign ++ ds)).2 = ds ∧ (splitSign (sign ++ ds)).1 = neg := by
    rcases hsign with ⟨hs1, hs2⟩ | ⟨hs1, hs2⟩ <;> subst hs1 <;> subst hs2
    · rw [List.nil_append, hcons,
        splitSign_no_sign h0 t0 (digit_or_comma_ne_sign (Or.inl hh0)).1
          (digit_or_comma_ne_sign (Or.inl hh0)).2]
      exact ⟨rfl, rfl⟩
    · rw [show (['-'] : List Char) ++ ds = '-' :: ds from rfl, splitSign_minus]
      exact ⟨rfl, rfl⟩
  show (if ((splitSign (sign ++ ds)).2.map lowCh = ['i', 'n', 'f'] ∨
        (splitSign (sign ++ ds)).2.map lowCh = ['i', 'n', 'f', 'i', 'n', 'i', 't', 'y']) then
      some (PyFloat.inf (splitSign (sign ++ ds)).1)
    else if (splitSign (sign ++ ds)).2.map lowCh = ['n', 'a', 'n'] then some PyFloat.nan
    else
      match parseDec (splitSign (sign ++ ds)).2 with
      | some q => some (PyFloat.finite
          (if (splitSign (sign ++ ds)).1 then ⟨-q.num, q.e10⟩ else q))
      | none => none) = _
  rw [hsp.1, hsp.2, hcons, List.map_cons, hlow]
  rw [if_neg (by
    intro h
    rcases h with h | h <;> (rw [List.cons.injEq] at h; exact hni h.1))]
  rw [if_neg (by
    intro h
    rw [List.cons.injEq] at h
    exact hnn h.1)]
  rw [← hcons, parseDec_digits ds hds hne]

theorem pyFloat_fmtCommaInt_small (i : Int) (h : i.natAbs < 1000) :
    pyFloat (fmtCommaInt i) = some (.finite ⟨i, 0⟩) := by
  have hdig : ∀ c ∈ (natDigitsRev i.natAbs).reverse, isDigitCh c = true :=
    fun c hc => natDigitsRev_digits _ c (List.mem_reverse.mp hc)
  have hne : (natDigitsRev i.natAbs).reverse ≠ [] := by
    simp [natDigitsRev_ne_nil]
  have hng : natGrouped i.natAbs = (natDigitsRev i.natAbs).reverse := by
    unfold natGrouped
    rw [group3_short _ (natDigitsRev_length_le_three _ h)]
  have hval : natOfDigits ((natDigitsRev i.natAbs).reverse) = i.natAbs :=
    natOfDigits_digitsRev i.natAbs
  rw [show fmtCommaInt i = ⟨intGrouped i⟩ from rfl]
  rw [pyFloat_clean _ (intGrouped_no_ws i) (intGrouped_no_us i)]
  unfold intGrouped
  rw [hng]
  split
  · rename_i hi
    rw [parseCore_digits ['-'] true _ (Or.inr ⟨rfl, rfl⟩) hdig hne]
    rw [if_pos rfl, hval]
    rw [show -(i.natAbs : Int) = i from by omega]
  · rename_i hi
    rw [parseCore_digits [] false _ (Or.inl ⟨rfl, rfl⟩) hdig hne]
    rw [if_neg (by simp), hval]
    rw [show ((i.natAbs : Int) : Int) = i from by omega]

theorem pyTrunc_int (i : Int) : pyTrunc ⟨i, 0⟩ = i := by
  unfold pyTrunc
  simp only [pow_zero, Nat.div_one]
  split
  · omega
  · omega

theorem fv_currency (v m : String) (hm : m ∈ currencyMetrics) :
    format_value v m =
      match pyFloat v with
      | some (.finite q) => ⟨'$' :: (fmtCommaFixed2 q).data⟩
      | some (.inf b) => if b then "$-inf" else "$inf"
      | some .nan => "$nan"
      | none => v := by
  unfold format_value
  rw [if_pos hm]

theorem fv_percent (v m : String) (hm : m ∉ currencyMetrics)
    (hp : m ∈ percentMetrics) :
    format_value v m = if endswithPct v then v else ⟨v.data ++ ['%']⟩ := by
  unfold format_value
  rw [if_neg hm, if_pos hp]

theorem fv_default (v m : String) (hm : m ∉ currencyMetrics)
    (hp : m ∉ percentMetrics) :
    format_value v m =
      match pyFloat v with
      | some (.finite q) => fmtCommaInt (pyTrunc q)
      | _ => v := by
  unfold format_value
  rw [if_neg hm, if_neg hp]
  cases hv : pyFloat v with
  | none => rfl
  | some pf => cases pf <;> rfl

theorem endswithPct_append (l : List Char) : endswithPct ⟨l ++ ['%']⟩ = true := by
  unfold endswithPct
  rw [show (String.mk (l ++ ['%'])).data = l ++ ['%'] from rfl]
  rw [List.getLast?_concat]
  decide

/-- Claim C10: `format_value` is idempotent — reformatting its own output
returns it unchanged.  Currency outputs start with `'$'` (rejected by
`float()`); grouped integers of four or more digits contain `','` (also
rejected); integers of at most three digits reparse to the same integer;
percentage outputs already end with `'%'`. -/
theorem c10_format_value_idempotent (v m : String) :
    format_value (format_value v m) m = format_value v m := by
  by_cases hm : m ∈ currencyMetrics
  · rw [fv_currency v m hm]
    cases hv : pyFloat v with
    | none =>
      rw [fv_currency v m hm, hv]
    | some pf =>
      cases pf with
      | finite q =>
        rw [fv_currency _ m hm, pyFloat_dollar]
      | inf b =>
        cases b with
        | true =>
          show format_value "$-inf" m = "$-inf"
          rw [fv_currency _ m hm, show pyFloat "$-inf" = none from by decide]
        | false =>
          show format_value "$inf" m = "$inf"
          rw [fv_currency _ m hm, show pyFloat "$inf" = none from by decide]
      | nan =>
        show format_value "$nan" m = "$nan"
        rw [fv_currency _ m hm, show pyFloat "$nan" = none from by decide]
  · by_cases hp : m ∈ percentMetrics
    · rw [fv_percent v m hm hp]
      by_cases he : endswithPct v = true
      · rw [if_pos he, fv_percent v m hm hp, if_pos he]
      · rw [if_neg he, fv_percent _ m hm hp, if_pos (endswithPct_append v.data)]
    · rw [fv_default v m hm hp]
      cases hv : pyFloat v with
      | none =>
        rw [fv_default v m hm hp, hv]
      | some pf =>
        cases pf with
        | finite q =>
          rw [fv_default _ m hm hp]
          by_cases hbig : 1000 ≤ (pyTrunc q).natAbs
          · rw [pyFloat_fmtCommaInt_large _ hbig]
          · rw [pyFloat_fmtCommaInt_small _ (by omega)]
            show fmtCommaInt (pyTrunc ⟨pyTrunc q, 0⟩) = fmtCommaInt (pyTrunc q)
            rw [pyTrunc_int]
        | inf b =>
          rw [fv_default v m hm hp, hv]
        | nan =>
          rw [fv_default v m hm hp, hv]

/-! ### Claim C1: export → reparse round trip -/

theorem dupQuotes_quote (t : List Char) :
    dupQuotes ('"' :: t) = '"' :: '"' :: dupQuotes t := by
  simp [dupQuotes]

theorem dupQuotes_other (c : Char) (t : List Char) (hc : c ≠ '"') :
    dupQuotes (c :: t) = c :: dupQuotes t := by
  simp [dupQuotes, hc]

theorem recQ_quote (r : List Char) : recQ ('"' :: r) = recQend r := by
  simp [recQ]

theorem recQend_quote (r : List Char) : recQend ('"' :: r) =
    ⟨'"' :: (recQ r).field, (recQ r).fields, (recQ r).more, (recQ r).rest⟩ := by
  simp [recQend]

theorem recQ_other (c : Char) (r : List Char) (hc : c ≠ '"') : recQ (c :: r) =
    ⟨c :: (recQ r).field, (recQ r).fields, (recQ r).more, (recQ r).rest⟩ := by
  simp [recQ, hc]

theorem recStart_other (c : Char) (r : List Char) (h1 : c ≠ '"') (h2 : c ≠ ',')
    (h3 : c ≠ '\n') : recStart (c :: r) =
    ⟨c :: (recU r).field, (recU r).fields, (recU r).more, (recU r).rest⟩ := by
  simp [recStart, h1, h2, h3]

theorem recU_append (f rest : List Char)
    (hf : ∀ c ∈ f, ¬c = ',' ∧ ¬c = '\n') :
    recU (f ++ rest) =
      ⟨f ++ (recU rest).field, (recU rest).fields,
       (recU rest).more, (recU rest).rest⟩ := by
  induction f with
  | nil => rfl
  | cons c t ih =>
    have hc := hf c (by simp)
    rw [List.cons_append]
    simp only [recU]
    rw [if_neg hc.1, if_neg hc.2]
    rw [ih (fun x hx => hf x (by simp [hx]))]
    rfl

theorem recQ_dup (f : List Char) : ∀ rest,
    recQ (dupQuotes f ++ '"' :: rest) =
      ⟨f ++ (recQend rest).field, (recQend rest).fields,
       (recQend rest).more, (recQend rest).rest⟩ := by
  induction f with
  | nil =>
    intro rest
    rw [show dupQuotes [] ++ '"' :: rest = '"' :: rest from rfl]
    rw [recQ_quote]
    rfl
  | cons c t ih =>
    intro rest
    by_cases hc : c = '"'
    · subst hc
      rw [dupQuotes_quote, List.cons_append, List.cons_append]
      rw [recQ_quote, recQend_quote, ih rest]
      rfl
    · rw [dupQuotes_other c t hc, List.cons_append]
      rw [recQ_other c _ hc, ih rest]
      rfl

theorem recStart_escField (f X : List Char)
    (hX : X = [] ∨ (∃ r, X = ',' :: r) ∨ (∃ r, X = '\n' :: r)) :
    recStart (escField f ++ X) =
      ⟨f, (recQend X).fields, (recQend X).more, (recQend X).rest⟩ := by
  have hXfield : (recQend X).field = [] := by
    rcases hX with h | ⟨r, h⟩ | ⟨r, h⟩ <;> subst h <;> rfl
  have hXsame : recStart X = recQend X ∧ recU X = recQend X := by
    rcases hX with h | ⟨r, h⟩ | ⟨r, h⟩ <;> subst h <;> exact ⟨rfl, rfl⟩
  unfold escField
  split
  · rw [show ('"' :: dupQuotes f ++ ['"']) ++ X =
      '"' :: (dupQuotes f ++ '"' :: X) from by simp]
    rw [show recStart ('"' :: (dupQuotes f ++ '"' :: X)) =
      recQ (dupQuotes f ++ '"' :: X) from by simp [recStart]]
    rw [recQ_dup f X, hXfield, List.append_nil]
  · rename_i hq
    have hq2 : needsQuote f = false := by
      cases hnb : needsQuote f
      · rfl
      · exact absurd hnb hq
    have hchars : ∀ c ∈ f, ¬c = ',' ∧ ¬c = '\n' ∧ ¬c = '"' := by
      intro c hc
      unfold needsQuote at hq2
      rw [List.any_eq_false] at hq2
      have h := hq2 c hc
      simp only [decide_eq_true_eq] at h
      push_neg at h
      exact ⟨h.1, h.2.2.1, h.2.1⟩
    cases f with
    | nil =>
      rw [List.nil_append, hXsame.1, ← hXfield]
    | cons c t =>
      have hc := hchars c (by simp)
      rw [List.cons_append]
      rw [recStart_other c _ hc.2.2 hc.1 hc.2.1]
      rw [recU_append t X (fun x hx => ⟨(hchars x (by simp [hx])).1,
        (hchars x (by simp [hx])).2.1⟩)]
      rw [hXsame.2, hXfield, List.append_nil]

theorem recStart_writeRow : ∀ (t : List (List Char)) (f : List Char) (r : List Char),
    recStart (writeRow (f :: t) ++ '\n' :: r) = ⟨f, t, true, r⟩ := by
  intro t
  induction t with
  | nil =>
    intro f r
    rw [show writeRow [f] = escField f from rfl]
    rw [recStart_escField f ('\n' :: r) (Or.inr (Or.inr ⟨r, rfl⟩))]
    rfl
  | cons f2 t2 ih =>
    intro f r
    rw [show writeRow (f :: f2 :: t2) = escField f ++ ',' :: writeRow (f2 :: t2) from rfl]
    rw [List.append_assoc]
    rw [show (',' :: writeRow (f2 :: t2)) ++ '\n' :: r =
      ',' :: (writeRow (f2 :: t2) ++ '\n' :: r) from rfl]
    rw [recStart_escField f _ (Or.inr (Or.inl ⟨_, rfl⟩))]
    rw [show recQend (',' :: (writeRow (f2 :: t2) ++ '\n' :: r)) =
      ⟨[], (recStart (writeRow (f2 :: t2) ++ '\n' :: r)).field ::
        (recStart (writeRow (f2 :: t2) ++ '\n' :: r)).fields,
       (recStart (writeRow (f2 :: t2) ++ '\n' :: r)).more,
       (recStart (writeRow (f2 :: t2) ++ '\n' :: r)).rest⟩ from rfl]
    rw [ih f2 r]

theorem writeCsv_cons (row : List (List Char)) (rows : List (List (List Char))) :
    writeCsv (row :: rows) = writeRow row ++ '\n' :: writeCsv rows := by
  unfold writeCsv
  simp

theorem writeCsv_eq_nil : ∀ rows, writeCsv rows = [] → rows = [] := by
  intro rows h
  cases rows with
  | nil => rfl
  | cons row rest =>
    rw [writeCsv_cons] at h
    simp at h

theorem parseCsv_cons (c : Char) (r : List Char) :
    parseCsv (c :: r) =
      (if (recStart (c :: r)).more then
        if (recStart (c :: r)).rest = [] then
          [(recStart (c :: r)).field :: (recStart (c :: r)).fields]
        else ((recStart (c :: r)).field :: (recStart (c :: r)).fields) ::
          parseCsv (recStart (c :: r)).rest
      else [(recStart (c :: r)).field :: (recStart (c :: r)).fields]) := by
  rw [parseCsv]

theorem parseCsv_nil : parseCsv [] = [] := by
  rw [parseCsv]

theorem parseCsv_writeCsv : ∀ rows : List (List (List Char)),
    (∀ row ∈ rows, row ≠ []) → parseCsv (writeCsv rows) = rows := by
  intro rows
  induction rows with
  | nil =>
    intro _
    rw [show writeCsv [] = [] from rfl]
    exact parseCsv_nil
  | cons row rest ih =>
    intro hrows
    obtain ⟨f, t, hrow⟩ : ∃ f t, row = f :: t := by
      cases hr : row with
      | nil => exact absurd hr (hrows row (by simp))
      | cons f t => exact ⟨f, t, rfl⟩
    subst hrow
    rw [writeCsv_cons]
    obtain ⟨c, rr, hcr⟩ : ∃ c rr,
        writeRow (f :: t) ++ '\n' :: writeCsv rest = c :: rr := by
      cases hw : writeRow (f :: t) ++ '\n' :: writeCsv rest with
      | nil => exact absurd hw (by simp)
      | cons c rr => exact ⟨c, rr, rfl⟩
    rw [hcr, parseCsv_cons, ← hcr, recStart_writeRow t f (writeCsv rest)]
    show (if (true : Bool) = true then
        if writeCsv rest = [] then [f :: t]
        else (f :: t) :: parseCsv (writeCsv rest)
      else [f :: t]) = (f :: t) :: rest
    rw [if_pos rfl]
    by_cases hrest : writeCsv rest = []
    · rw [if_pos hrest]
      have hrnil := writeCsv_eq_nil rest hrest
      subst hrnil
      rfl
    · rw [if_neg hrest]
      rw [ih (fun row2 hrow2 => hrows row2 (by simp [hrow2]))]

theorem rowToSub_subFields (s : Submission) : rowToSub (subFields s) = some s := rfl

theorem mapM_rowToSub (l : List Submission) :
    (l.map subFields).mapM rowToSub = some l := by
  induction l with
  | nil => rfl
  | cons s t ih =>
    rw [List.map_cons]
    rw [List.mapM_cons, rowToSub_subFields, ih]
    rfl

/-- Claim C1: exporting any sequence of records (commas, quotes and newlines
in any field included) and reparsing the bytes by the standard tabular-text
convention recovers the records field for field. -/
theorem c1_export_roundtrip (l : List Submission) : reimport (to_csv l) = some l := by
  unfold reimport to_csv
  rw [show (String.mk (writeCsv (headerFields :: l.map subFields))).data =
      writeCsv (headerFields :: l.map subFields) from rfl]
  rw [parseCsv_writeCsv (headerFields :: l.map subFields) (by
    intro row hrow
    rcases List.mem_cons.mp hrow with h | h
    · rw [h]
      unfold headerFields
      simp
    · obtain ⟨s, _, hs⟩ := List.mem_map.mp h
      rw [← hs]
      unfold subFields
      simp)]
  exact mapM_rowToSub l
